import Mathlib

/-!
# Verification of the heartsmart_q filter-specification interpreter

Shallow embedding of the core filter engine of this repository:
`parser.py` (`get_by_path`, `coerce_number`, `_canonical_gender_token`,
`_text_equal`, `match_condition`, `matches`, `filter_rows`) and the spec
validator in `app.py` (`_spec_depth`, `validate_spec`, `ALLOWED_OPS`).

Modelling conventions:
* Python/JSON values are the mutual inductive `Json` below (lists and
  dicts get their own list types so that structural recursion stays
  kernel-computable).  Python floats are modelled as exact rationals
  (`ℚ`); IEEE rounding, infinities and NaN are outside the model (no
  claim in scope touches them).  Python `int` and `float` are distinct
  constructors, and Python `bool` participates in numeric contexts (in
  CPython `bool` is a subclass of `int`).
* Python dicts are association lists with first-occurrence lookup; a real
  dict corresponds to a `JsonDict` with pairwise-distinct keys.
* A Python function that can raise is modelled with `Option`/`Except`:
  `none`/`.error` is an escaping exception, `some`/`.ok` a normal return.
* Recursion over `Json` is via a fuel parameter so that every definition
  is structural; top-level wrappers pass `jsize`-based fuel, which
  strictly bounds the recursion depth actually used.
* String manipulation is done on `List Char`; case mapping and character
  classes are modelled for ASCII (the data in scope is ASCII; CPython's
  versions are Unicode-aware).
-/

namespace HSq

/-! ## Character helpers (ASCII model of the Python string primitives) -/

/-- Python `str.strip()` whitespace (ASCII part). -/
def isPySpace (c : Char) : Bool :=
  c = ' ' || c = '\t' || c = '\n' || c = '\r' || c = '\x0b' || c = '\x0c'

/-- ASCII lower-casing, as used by `str.lower()` on the data in scope. -/
def lowerChar (c : Char) : Char :=
  if 'A' ≤ c ∧ c ≤ 'Z' then Char.ofNat (c.toNat + 32) else c

/-- ASCII upper-casing (used for IGNORECASE class ranges). -/
def upperChar (c : Char) : Char :=
  if 'a' ≤ c ∧ c ≤ 'z' then Char.ofNat (c.toNat - 32) else c

def lowerChars (cs : List Char) : List Char := cs.map lowerChar

/-- Python `str.strip()` on a character list. -/
def trimChars (cs : List Char) : List Char :=
  ((cs.dropWhile isPySpace).reverse.dropWhile isPySpace).reverse

/-- Word character for the regex `\b` boundary (`[a-zA-Z0-9_]`, ASCII model of `\w`). -/
def isWordChar (c : Char) : Bool := c.isAlphanum || c = '_'

/-! ## The numeric scanners used by `parser.coerce_number`

The two fixed regular expressions used by `coerce_number`
(`([-+]?\d+(?:\.\d+)?)\s*years?\b` and `[-+]?\d+(?:\.\d+)?`, both
searched leftmost-first, IGNORECASE) are implemented directly as
scanners; for these patterns a leftmost scan with maximal digit runs is
equivalent to the backtracking search (after a shortened digit run the
next character is a digit again, which no later pattern element can
consume). -/

/-- Maximal run of ASCII digits (`\d+`): returns the digits and the rest. -/
def takeDigits : List Char → List Char × List Char
  | [] => ([], [])
  | c :: rest =>
    if c.isDigit then
      let (ds, r) := takeDigits rest
      (c :: ds, r)
    else ([], c :: rest)

/-- Digit value of a digit run. -/
def digitsVal (ds : List Char) : ℕ :=
  ds.foldl (fun a c => a * 10 + (c.toNat - 48)) 0

/-- Digit run in CPython `float()` syntax: single underscores allowed
between digits (`1_0` parses, `1__0` and `1_` do not). -/
def takeDigitsU : List Char → List Char × List Char
  | [] => ([], [])
  | '_' :: d :: rest =>
    if d.isDigit then
      let (ds, r) := takeDigitsU rest
      (d :: ds, r)
    else ([], '_' :: d :: rest)
  | c :: rest =>
    if c.isDigit then
      let (ds, r) := takeDigitsU rest
      (c :: ds, r)
    else ([], c :: rest)

/-- Underscore-aware digit run that must start with a digit. -/
def parseDigitsU (cs : List Char) : Option (List Char × List Char) :=
  match cs with
  | c :: rest =>
    if c.isDigit then
      let (ds, r) := takeDigitsU rest
      some (c :: ds, r)
    else none
  | [] => none

/-- The exact rational `sgn * ds.fs` (integer digits `ds`, fraction digits `fs`). -/
def decimalVal (sgn : ℤ) (ds fs : List Char) : ℚ :=
  mkRat (sgn * (digitsVal ds * 10 ^ fs.length + digitsVal fs)) (10 ^ fs.length)

/-- Model of CPython `float(str)` on an already lower-cased character
list: `[sign] (digits [. digits] | . digits) [e [sign] digits]`, with
single underscores allowed between digits.  `float()` strips surrounding
whitespace itself (relevant because comma removal can re-expose spaces).
The `inf`/`infinity`/`nan` spellings are not modelled (they have no
rational denotation); no claim in scope touches them. -/
def pyFloatCore (csIn : List Char) : Option ℚ :=
  let cs0 := trimChars csIn
  let (sgn, cs1) : ℤ × List Char :=
    match cs0 with
    | '+' :: r => (1, r)
    | '-' :: r => (-1, r)
    | _ => (1, cs0)
  let mant : Option (ℕ × ℕ × List Char) :=
    match parseDigitsU cs1 with
    | some (ds, r) =>
      match r with
      | '.' :: r2 =>
        match parseDigitsU r2 with
        | some (fs, r3) => some (digitsVal (ds ++ fs), fs.length, r3)
        | none => some (digitsVal ds, 0, r2)
      | _ => some (digitsVal ds, 0, r)
    | none =>
      match cs1 with
      | '.' :: r2 =>
        match parseDigitsU r2 with
        | some (fs, r3) => some (digitsVal fs, fs.length, r3)
        | none => none
      | _ => none
  match mant with
  | none => none
  | some (m, fracLen, r) =>
    let expPart : Option (ℤ × List Char) :=
      match r with
      | 'e' :: r2 =>
        let (es, r3) : ℤ × List Char :=
          match r2 with
          | '+' :: r4 => (1, r4)
          | '-' :: r4 => (-1, r4)
          | _ => (1, r2)
        match parseDigitsU r3 with
        | some (xs, r5) => some (es * digitsVal xs, r5)
        | none => none
      | _ => some (0, r)
    match expPart with
    | none => none
    | some (e, rest) =>
      if rest.isEmpty then
        let net : ℤ := e - fracLen
        if 0 ≤ net then some (mkRat (sgn * m * 10 ^ net.toNat) 1)
        else some (mkRat (sgn * m) (10 ^ (-net).toNat))
      else none

/-- Consume `year` case-insensitively, then an optional `s`; the `\b` check
is done by the caller on the returned rest.  (If the optional `s` is
present it must be consumed: leaving it makes the following `\b` fail on a
word character, exactly as in the backtracking engine.) -/
def stripYear : List Char → Option (List Char)
  | c1 :: c2 :: c3 :: c4 :: rest =>
    if lowerChar c1 = 'y' ∧ lowerChar c2 = 'e' ∧ lowerChar c3 = 'a' ∧ lowerChar c4 = 'r' then
      match rest with
      | c5 :: rest2 => if lowerChar c5 = 's' then some rest2 else some rest
      | [] => some []
    else none
  | _ => none

/-- Anchored match of `([-+]?\d+(?:\.\d+)?)\s*years?\b` (IGNORECASE) at
the head of `cs`; returns the captured number. -/
def yearsAt (cs : List Char) : Option ℚ :=
  let (sgn, cs1) : ℤ × List Char :=
    match cs with
    | '+' :: r => (1, r)
    | '-' :: r => (-1, r)
    | _ => (1, cs)
  match takeDigits cs1 with
  | ([], _) => none
  | (ds, cs2) =>
    let (fs, cs3) : List Char × List Char :=
      match cs2 with
      | '.' :: r =>
        match takeDigits r with
        | ([], _) => ([], cs2)
        | (fs, r2) => (fs, r2)
      | _ => ([], cs2)
    let cs4 := cs3.dropWhile isPySpace
    match stripYear cs4 with
    | none => none
    | some cs5 =>
      match cs5 with
      | [] => some (decimalVal sgn ds fs)
      | c :: _ => if isWordChar c then none else some (decimalVal sgn ds fs)

/-- Leftmost search for the years pattern (`re.search` tries each start
position left to right). -/
def searchYears : List Char → Option ℚ
  | [] => none
  | c :: rest =>
    match yearsAt (c :: rest) with
    | some q => some q
    | none => searchYears rest

/-- Anchored match of `[-+]?\d+(?:\.\d+)?` at the head of `cs`. -/
def numberAt (cs : List Char) : Option ℚ :=
  let (sgn, cs1) : ℤ × List Char :=
    match cs with
    | '+' :: r => (1, r)
    | '-' :: r => (-1, r)
    | _ => (1, cs)
  match takeDigits cs1 with
  | ([], _) => none
  | (ds, cs2) =>
    let (fs, _) : List Char × List Char :=
      match cs2 with
      | '.' :: r =>
        match takeDigits r with
        | ([], _) => ([], cs2)
        | (fs, r2) => (fs, r2)
      | _ => ([], cs2)
    some (decimalVal sgn ds fs)

/-- Leftmost search for the generic signed-number pattern. -/
def searchFirstNumber : List Char → Option ℚ
  | [] => none
  | c :: rest =>
    match numberAt (c :: rest) with
    | some q => some q
    | none => searchFirstNumber rest

/-! ## The JSON/Python value model -/

mutual

/-- JSON-compatible Python value (None, bool, int, float, str, list, dict). -/
inductive Json where
  | null : Json
  | bool : Bool → Json
  | int : Int → Json
  | float : ℚ → Json
  | str : String → Json
  | arr : JsonList → Json
  | obj : JsonDict → Json
  deriving DecidableEq

/-- A Python list of JSON values. -/
inductive JsonList where
  | nil : JsonList
  | cons : Json → JsonList → JsonList
  deriving DecidableEq

/-- A Python dict with string keys (insertion order, unique keys). -/
inductive JsonDict where
  | nil : JsonDict
  | cons : String → Json → JsonDict → JsonDict
  deriving DecidableEq

end

mutual

/-- Structural size of a value; used as recursion fuel. -/
def jsize : Json → ℕ
  | .null => 1
  | .bool _ => 1
  | .int _ => 1
  | .float _ => 1
  | .str _ => 1
  | .arr xs => 1 + jsizeL xs
  | .obj kvs => 1 + jsizeO kvs

def jsizeL : JsonList → ℕ
  | .nil => 1
  | .cons x xs => 1 + jsize x + jsizeL xs

def jsizeO : JsonDict → ℕ
  | .nil => 1
  | .cons _ v kvs => 1 + jsize v + jsizeO kvs

end

/-- Build a `JsonList` from a Lean list (definitional convenience). -/
def JsonList.ofList : List Json → JsonList
  | [] => .nil
  | x :: xs => .cons x (JsonList.ofList xs)

/-- Back to a Lean list. -/
def JsonList.toList : JsonList → List Json
  | .nil => []
  | .cons x xs => x :: JsonList.toList xs

/-- Build a `JsonDict` from a Lean list (definitional convenience). -/
def JsonDict.ofList : List (String × Json) → JsonDict
  | [] => .nil
  | (k, v) :: rest => .cons k v (JsonDict.ofList rest)

/-- First-occurrence lookup (Python `d[k]` / `k in d`). -/
def lookupKey : JsonDict → String → Option Json
  | .nil, _ => none
  | .cons k v rest, key => if k = key then some v else lookupKey rest key

/-- Lookup with a character-list key (used by the path resolver). -/
def lookupKeyChars : JsonDict → List Char → Option Json
  | .nil, _ => none
  | .cons k v rest, key => if k.data = key then some v else lookupKeyChars rest key

def JsonList.isEmpty : JsonList → Bool
  | .nil => true
  | .cons _ _ => false

def JsonDict.isEmpty : JsonDict → Bool
  | .nil => true
  | .cons _ _ _ => false

def jlistLen : JsonList → ℕ
  | .nil => 0
  | .cons _ rest => jlistLen rest + 1

/-- `any` over a `JsonList`. -/
def jlAny (p : Json → Bool) : JsonList → Bool
  | .nil => false
  | .cons x xs => p x || jlAny p xs

/-- `all` over a `JsonList`. -/
def jlAll (p : Json → Bool) : JsonList → Bool
  | .nil => true
  | .cons x xs => p x && jlAll p xs

/-- Every key of the dict satisfies `p` (used for the `extra = keys - {...}`
checks of the validator: the set difference is empty iff every key is in
the allowed set). -/
def dictAllKeys (p : String → Bool) : JsonDict → Bool
  | .nil => true
  | .cons k _ rest => p k && dictAllKeys p rest

/-- Python truthiness (`not x` is true exactly for these values). -/
def pyFalsy : Json → Bool
  | .null => true
  | .bool b => !b
  | .int n => n == 0
  | .float q => q == 0
  | .str s => s.data.isEmpty
  | .arr xs => xs.isEmpty
  | .obj kvs => kvs.isEmpty

/-- Mirrors Python `value is None`. -/
def Json.isNull : Json → Bool
  | .null => true
  | _ => false

/-- Mirrors Python `isinstance(x, dict)`. -/
def Json.isObj : Json → Bool
  | .obj _ => true
  | _ => false

/-! ## Python `==` (value equality, used by the `eq` fallback and `in`/`nin`)

CPython compares `bool`/`int`/`float` by numeric value (`True == 1`,
`1 == 1.0`); other cross-type comparisons are `False`; sequences and
mappings compare pointwise. -/

/-- Numeric denotation shared by Python `bool`/`int`/`float` in `==`. -/
def pyNumQ : Json → Option ℚ
  | .bool b => some (if b then (1 : ℚ) else 0)
  | .int n => some (mkRat n 1)
  | .float q => some q
  | _ => none

/-- Pointwise list equality given an element equality. -/
def pyEqList (eq : Json → Json → Bool) : JsonList → JsonList → Bool
  | .nil, .nil => true
  | .cons x xs, .cons y ys => eq x y && pyEqList eq xs ys
  | _, _ => false

/-- One inclusion of Python dict equality: every binding of the second
dict has an equal binding in `ys`. -/
def pyEqObjSub (eq : Json → Json → Bool) (ys : JsonDict) : JsonDict → Bool
  | .nil => true
  | .cons k v rest =>
    (match lookupKey ys k with
     | some v2 => eq v v2
     | none => false) && pyEqObjSub eq ys rest

/-- Python `==` on JSON-like values, fuelled (the fuel strictly bounds the
nesting depth visited; the wrapper `pyEq` supplies a sufficient bound). -/
def pyEqF : ℕ → Json → Json → Bool
  | 0, _, _ => false
  | fuel + 1, a, b =>
    match pyNumQ a, pyNumQ b with
    | some qa, some qb => qa == qb
    | _, _ =>
      match a, b with
      | .null, .null => true
      | .str x, .str y => x == y
      | .arr xs, .arr ys => pyEqList (pyEqF fuel) xs ys
      | .obj xs, .obj ys => pyEqObjSub (pyEqF fuel) ys xs && pyEqObjSub (pyEqF fuel) xs ys
      | _, _ => false

/-- Python `a == b`. -/
def pyEq (a b : Json) : Bool := pyEqF (jsize a + jsize b + 1) a b

/-! ## Text equality (`parser._norm_str`, `_canonical_gender_token`, `_text_equal`) -/

/-- `parser._norm_str` at its only call sites (string arguments):
`str(x).strip().lower()`. -/
def normStrChars (s : String) : List Char := lowerChars (trimChars s.data)

/-- `parser._canonical_gender_token`: lower-case, strip non-letters
(`re.sub(r"[^a-z]+", "", x.lower())`), then map recognised spellings to a
canonical token. -/
def canonical_gender_token : Json → Option String
  | .str x =>
    let token := (lowerChars x.data).filter (fun c => 'a' ≤ c && c ≤ 'z')
    if token ∈ ["m".data, "male".data, "males".data, "man".data, "men".data] then
      some "male"
    else if token ∈ ["f".data, "female".data, "females".data, "woman".data, "women".data] then
      some "female"
    else none
  | _ => none

/-- `parser._text_equal`. -/
def text_equal (a b : Json) : Bool :=
  match canonical_gender_token a, canonical_gender_token b with
  | some ga, some gb => ga == gb
  | _, _ =>
    match a, b with
    | .str x, .str y => normStrChars x == normStrChars y
    | _, _ => pyEq a b

/-! ## `parser.coerce_number` -/

/-- `parser.coerce_number`.  `isinstance(x, (int, float))` is true for
Python booleans as well (`bool` subclasses `int`), so booleans coerce to
`1.0`/`0.0`.  The inner `float(...)` calls on regex captures can never
fail (the captured text is always float syntax), so the captures are
returned directly. -/
def coerce_number : Json → Option ℚ
  | .bool b => some (if b then (1 : ℚ) else 0)
  | .int n => some (mkRat n 1)
  | .float q => some q
  | .str x =>
    let s := trimChars x.data
    if s.isEmpty then none
    else
      let sClean := s.filter (fun c => c ≠ ',')
      match pyFloatCore (lowerChars sClean) with
      | some q => some q
      | none =>
        match searchYears sClean with
        | some q => some q
        | none => searchFirstNumber sClean
  | _ => none

/-! ## Python `str()` (used by the string-ish operators) -/

/-- Decimal rendering of a float value.  CPython float `repr` is modelled
only for terminating decimals (floats are exact rationals here); the
final fallback branch is unreachable from decimal inputs of bounded
precision. -/
def floatRepr (q : ℚ) : String :=
  let sign := if q.num < 0 then "-" else ""
  let n := q.num.natAbs
  let d := q.den
  match (List.range 18).find? (fun k => (n * 10 ^ k) % d = 0) with
  | some k =>
    let total := n * 10 ^ k / d
    let ip := total / 10 ^ k
    let fp := total % 10 ^ k
    if k = 0 then sign ++ toString ip ++ ".0"
    else
      let fs := toString fp
      sign ++ toString ip ++ "." ++
        String.mk (List.replicate (k - fs.length) '0') ++ fs
  | none => sign ++ toString n ++ "/" ++ toString d

/-- Comma-joined `repr` of list elements. -/
def pyReprListF (pr : Json → String) : JsonList → String
  | .nil => ""
  | .cons x .nil => pr x
  | .cons x rest => pr x ++ ", " ++ pyReprListF pr rest

/-- Comma-joined `repr` of dict items. -/
def pyReprDictF (pr : Json → String) : JsonDict → String
  | .nil => ""
  | .cons k v .nil => "\x27" ++ k ++ "\x27: " ++ pr v
  | .cons k v rest => "\x27" ++ k ++ "\x27: " ++ pr v ++ ", " ++ pyReprDictF pr rest

/-- Python `repr` on JSON-like values, fuelled (string escaping is
approximated by plain single quotes). -/
def pyReprF : ℕ → Json → String
  | 0, _ => ""
  | fuel + 1, j =>
    match j with
    | .null => "None"
    | .bool true => "True"
    | .bool false => "False"
    | .int n => toString n
    | .float q => floatRepr q
    | .str s => "\x27" ++ s ++ "\x27"
    | .arr xs => "[" ++ pyReprListF (pyReprF fuel) xs ++ "]"
    | .obj kvs => "\x7b" ++ pyReprDictF (pyReprF fuel) kvs ++ "\x7d"

/-- Python `str()`: identical to `repr` except on strings. -/
def pyStr : Json → String
  | .str s => s
  | j => pyReprF (jsize j + 1) j

/-! ## Substring tests (Python `in`, `startswith`, `endswith` on strings) -/

/-- `t` is a prefix of `s`. -/
def isPrefixList : List Char → List Char → Bool
  | [], _ => true
  | _ :: _, [] => false
  | a :: as, b :: bs => a == b && isPrefixList as bs

/-- `t` occurs contiguously in `s` (Python `t in s`). -/
def isSubList (t : List Char) : List Char → Bool
  | [] => t.isEmpty
  | s@(_ :: rest) => isPrefixList t s || isSubList t rest

/-- `t` is a suffix of `s` (Python `s.endswith(t)`). -/
def isSuffixList (t s : List Char) : Bool :=
  isPrefixList t.reverse s.reverse

/-! ## Model of the Python `re` library (the fragment reachable from
`match_condition`'s `regex` operator)

`re.search(pattern, s, re.IGNORECASE)` is modelled by a syntax-directed
parser producing an AST and a fuelled backtracking matcher.  A pattern
the parser rejects models `re.error` (which the evaluator catches and
turns into `False`).  The parser covers the classical syntax: literals,
`.`, character classes, groups `(...)`/`(?:...)`, alternation,
quantifiers `*`/`+`/`?`/`{m,n}` (non-greedy markers parse, matching is
greedy), anchors `^`/`$`/`\A`/`\Z`, word boundaries and the common
escapes.  Python extensions outside this fragment (lookarounds,
backreferences, named groups, inline flags, octal escapes) are
conservatively treated as parse errors.  No claim in scope depends on
the match result of a valid pattern. -/

/-- One member of a character class. -/
inductive CItem where
  | ch : Char → CItem
  | range : Char → Char → CItem
  | dcls : CItem
  | ndcls : CItem
  | wcls : CItem
  | nwcls : CItem
  | scls : CItem
  | nscls : CItem
  deriving DecidableEq

/-- Regular-expression AST. -/
inductive RE where
  | eps : RE
  | lit : Char → RE
  | anyc : RE
  | cls : Bool → List CItem → RE
  | cat : RE → RE → RE
  | alt : RE → RE → RE
  | star : RE → RE
  | rep : RE → ℕ → Option ℕ → RE
  | bol : RE
  | eol : RE
  | wordB : RE
  | nwordB : RE
  deriving DecidableEq

/-- Escapes legal outside a character class (an unknown alphanumeric
escape is a `re.error`). -/
def escAtom (c : Char) : Option RE :=
  if c = 'd' then some (.cls false [.dcls])
  else if c = 'D' then some (.cls false [.ndcls])
  else if c = 'w' then some (.cls false [.wcls])
  else if c = 'W' then some (.cls false [.nwcls])
  else if c = 's' then some (.cls false [.scls])
  else if c = 'S' then some (.cls false [.nscls])
  else if c = 'b' then some .wordB
  else if c = 'B' then some .nwordB
  else if c = 'A' then some .bol
  else if c = 'Z' then some .eol
  else if c = 'n' then some (.lit '\n')
  else if c = 't' then some (.lit '\t')
  else if c = 'r' then some (.lit '\r')
  else if c = 'f' then some (.lit '\x0c')
  else if c = 'v' then some (.lit '\x0b')
  else if c = '0' then some (.lit '\x00')
  else if c.isAlphanum then none
  else some (.lit c)

/-- Escapes legal inside a character class (`\b` is backspace there). -/
def escClassItem (c : Char) : Option CItem :=
  if c = 'd' then some .dcls
  else if c = 'D' then some .ndcls
  else if c = 'w' then some .wcls
  else if c = 'W' then some .nwcls
  else if c = 's' then some .scls
  else if c = 'S' then some .nscls
  else if c = 'b' then some (.ch '\x08')
  else if c = 'n' then some (.ch '\n')
  else if c = 't' then some (.ch '\t')
  else if c = 'r' then some (.ch '\r')
  else if c = 'f' then some (.ch '\x0c')
  else if c = 'v' then some (.ch '\x0b')
  else if c = '0' then some (.ch '\x00')
  else if c.isAlphanum then none
  else some (.ch c)

def parseHexDigit (c : Char) : Option ℕ :=
  if c.isDigit then some (c.toNat - 48)
  else if 'a' ≤ c ∧ c ≤ 'f' then some (c.toNat - 87)
  else if 'A' ≤ c ∧ c ≤ 'F' then some (c.toNat - 55)
  else none

/-- One class member that is a plain character or an escape. -/
def parseClassChar : List Char → Option (CItem × List Char)
  | [] => none
  | '\\' :: c :: rest =>
    (match c, rest with
     | 'x', h1 :: h2 :: r3 =>
       match parseHexDigit h1, parseHexDigit h2 with
       | some a, some b => some (.ch (Char.ofNat (a * 16 + b)), r3)
       | _, _ => none
     | 'x', _ => none
     | _, _ => (escClassItem c).map (fun it => (it, rest)))
  | '\\' :: [] => none
  | c :: rest => some (.ch c, rest)

/-- Class body after the opening bracket (and after a leading `]`, which
is a literal member there); consumes up to and including the closing
bracket.  An unterminated class is a `re.error`. -/
def parseClassItems : ℕ → List Char → List CItem → Option (List CItem × List Char)
  | 0, _, _ => none
  | _ + 1, [], _ => none
  | _ + 1, ']' :: rest, acc => some (acc.reverse, rest)
  | fuel + 1, cs, acc =>
    match parseClassChar cs with
    | none => none
    | some (item, rest) =>
      match item, rest with
      | .ch lo, '-' :: (r2c :: _ : List Char) =>
        if r2c = ']' then parseClassItems fuel rest (item :: acc)
        else
          match parseClassChar (r2c :: (rest.tail).tail) with
          | some (.ch hi, r4) =>
            if lo ≤ hi then parseClassItems fuel r4 (CItem.range lo hi :: acc)
            else none
          | _ => none
      | _, _ => parseClassItems fuel rest (item :: acc)

/-- A character class `[...]` (after the opening bracket). -/
def parseClass (cs : List Char) : Option (RE × List Char) :=
  let (neg, cs1) : Bool × List Char :=
    match cs with
    | '^' :: r => (true, r)
    | _ => (false, cs)
  let (acc0, cs2) : List CItem × List Char :=
    match cs1 with
    | ']' :: r => ([CItem.ch ']'], r)
    | _ => ([], cs1)
  match parseClassItems (cs2.length + 1) cs2 acc0 with
  | some (items, rest) => some (.cls neg items, rest)
  | none => none

/-- A brace quantifier body after the opening brace: `m}`, `m,}`, `m,n}`,
`,n}`.  `none` means the text is not quantifier syntax (the brace is then
a literal, as in CPython). -/
def parseBrace (cs : List Char) : Option (ℕ × Option ℕ × List Char) :=
  let (ds1, r1) := takeDigits cs
  match r1 with
  | '\x7d' :: r2 =>
    if ds1.isEmpty then none
    else some (digitsVal ds1, some (digitsVal ds1), r2)
  | ',' :: r2 =>
    let (ds2, r3) := takeDigits r2
    match r3 with
    | '\x7d' :: r4 =>
      if ds1.isEmpty && ds2.isEmpty then none
      else some (if ds1.isEmpty then 0 else digitsVal ds1,
                 if ds2.isEmpty then none else some (digitsVal ds2), r4)
    | _ => none
  | _ => none

/-- After a quantified atom: an optional non-greedy `?`, then any further
quantifier is a `re.error` (multiple repeat). -/
def afterQuant (r : RE) (cs : List Char) : Option (RE × List Char) :=
  let cs1 := match cs with
    | '?' :: rest => rest
    | _ => cs
  match cs1 with
  | '*' :: _ => none
  | '+' :: _ => none
  | '?' :: _ => none
  | '\x7b' :: r2 =>
    match parseBrace r2 with
    | some _ => none
    | none => some (r, cs1)
  | _ => some (r, cs1)

/-- One atom: group, class, `.`, anchor, escape or literal.  A quantifier
with no atom before it is a `re.error` (nothing to repeat); `(?` forms
other than `(?:` are outside the modelled fragment. -/
def parseAtom (pAlt : List Char → Option (RE × List Char)) :
    List Char → Option (RE × List Char)
  | [] => none
  | c :: rest =>
    if c = '(' then
      match rest with
      | '?' :: ':' :: r2 =>
        match pAlt r2 with
        | some (r, ')' :: r3) => some (r, r3)
        | _ => none
      | '?' :: _ => none
      | _ =>
        match pAlt rest with
        | some (r, ')' :: r3) => some (r, r3)
        | _ => none
    else if c = ')' ∨ c = '|' then none
    else if c = '[' then parseClass rest
    else if c = '.' then some (.anyc, rest)
    else if c = '^' then some (.bol, rest)
    else if c = '$' then some (.eol, rest)
    else if c = '*' ∨ c = '+' ∨ c = '?' then none
    else if c = '\x7b' then
      match parseBrace rest with
      | some _ => none
      | none => some (.lit '\x7b', rest)
    else if c = '\\' then
      match rest with
      | 'x' :: h1 :: h2 :: r3 =>
        match parseHexDigit h1, parseHexDigit h2 with
        | some a, some b => some (.lit (Char.ofNat (a * 16 + b)), r3)
        | _, _ => none
      | 'x' :: _ => none
      | e :: r2 => (escAtom e).map (fun a => (a, r2))
      | [] => none
    else some (.lit c, rest)

/-- An atom with its quantifier, if any (`{m,n}` requires `m ≤ n`,
otherwise `re.error`). -/
def parseRepeated (pAlt : List Char → Option (RE × List Char))
    (cs : List Char) : Option (RE × List Char) :=
  match parseAtom pAlt cs with
  | none => none
  | some (a, rest) =>
    match rest with
    | '*' :: r2 => afterQuant (.star a) r2
    | '+' :: r2 => afterQuant (.cat a (.star a)) r2
    | '?' :: r2 => afterQuant (.alt a .eps) r2
    | '\x7b' :: r2 =>
      match parseBrace r2 with
      | some (lo, hi, r3) =>
        match hi with
        | some h => if lo ≤ h then afterQuant (.rep a lo hi) r3 else none
        | none => afterQuant (.rep a lo hi) r3
      | none => some (a, rest)
    | _ => some (a, rest)

/-- A concatenation: atoms until `)` , `|` or the end (possibly empty). -/
def parseCat (pAlt : List Char → Option (RE × List Char)) :
    ℕ → List Char → Option (RE × List Char)
  | 0, _ => none
  | _ + 1, [] => some (.eps, [])
  | fuel + 1, c :: cs =>
    if c = ')' ∨ c = '|' then some (.eps, c :: cs)
    else
      match parseRepeated pAlt (c :: cs) with
      | none => none
      | some (r, rest) =>
        match parseCat pAlt fuel rest with
        | none => none
        | some (r2, rest2) => some (.cat r r2, rest2)

/-- An alternation: concatenations separated by `|`.  The fuel bounds the
group-nesting/alternation depth; every nesting step has consumed at least
one input character, so the wrapper's bound suffices. -/
def parseAltF : ℕ → List Char → Option (RE × List Char)
  | 0, _ => none
  | fuel + 1, cs =>
    match parseCat (parseAltF fuel) (cs.length + 1) cs with
    | none => none
    | some (r, rest) =>
      match rest with
      | '|' :: r2 =>
        match parseAltF fuel r2 with
        | none => none
        | some (r3, rest3) => some (.alt r r3, rest3)
      | _ => some (r, rest)

/-- `re.compile(pattern, re.IGNORECASE)`: `none` is `re.error`.  Leftover
input (an unbalanced `)`) is an error as well. -/
def parseRE (pattern : String) : Option RE :=
  match parseAltF (pattern.data.length + 2) pattern.data with
  | some (r, []) => some r
  | _ => none

/-- Case-folded character comparison (IGNORECASE). -/
def foldEqChar (a b : Char) : Bool := lowerChar a == lowerChar b

/-- Class membership of one item, with IGNORECASE folding on literals and
ranges. -/
def citemMatch (it : CItem) (c : Char) : Bool :=
  match it with
  | .ch a => foldEqChar a c
  | .range lo hi =>
    (lo ≤ c && c ≤ hi) || (lo ≤ lowerChar c && lowerChar c ≤ hi) ||
      (lo ≤ upperChar c && upperChar c ≤ hi)
  | .dcls => c.isDigit
  | .ndcls => !c.isDigit
  | .wcls => isWordChar c
  | .nwcls => !isWordChar c
  | .scls => isPySpace c
  | .nscls => !isPySpace c

def clsMatch (neg : Bool) (items : List CItem) (c : Char) : Bool :=
  let m := items.any (fun it => citemMatch it c)
  if neg then !m else m

/-- `\b`: word-ness changes between the previous and the next character. -/
def isBoundary (prev : Option Char) (s : List Char) : Bool :=
  let pw := match prev with | some c => isWordChar c | none => false
  let nw := match s with | c :: _ => isWordChar c | [] => false
  pw != nw

/-- Backtracking matcher in continuation style.  `prev` is the character
before the current position (for `^` and `\b`).  Star iterations must
consume input (an empty-matching iteration cannot change the outcome).
The fuel bounds the depth of nested matcher calls; exhaustion yields
`false` (the wrapper passes a generous bound; no claim in scope depends
on the match result of a valid pattern). -/
def reM : ℕ → RE → Option Char → List Char → (Option Char → List Char → Bool) → Bool
  | 0, _, _, _, _ => false
  | fuel + 1, re, prev, s, k =>
    match re with
    | .eps => k prev s
    | .lit c =>
      match s with
      | [] => false
      | c2 :: rest => foldEqChar c c2 && k (some c2) rest
    | .anyc =>
      match s with
      | [] => false
      | c2 :: rest => c2 != '\n' && k (some c2) rest
    | .cls neg items =>
      match s with
      | [] => false
      | c2 :: rest => clsMatch neg items c2 && k (some c2) rest
    | .cat a b => reM fuel a prev s (fun p2 s2 => reM fuel b p2 s2 k)
    | .alt a b => reM fuel a prev s k || reM fuel b prev s k
    | .star a =>
      reM fuel a prev s
        (fun p2 s2 => decide (s2.length < s.length) && reM fuel (.star a) p2 s2 k) ||
        k prev s
    | .rep a lo hi =>
      if lo = 0 then
        match hi with
        | some 0 => k prev s
        | _ =>
          reM fuel a prev s
            (fun p2 s2 => decide (s2.length < s.length) &&
               reM fuel (.rep a 0 (hi.map (· - 1))) p2 s2 k) ||
            k prev s
      else
        reM fuel a prev s
          (fun p2 s2 => reM fuel (.rep a (lo - 1) (hi.map (· - 1))) p2 s2 k)
    | .bol => prev.isNone && k prev s
    | .eol => s.isEmpty && k prev s
    | .wordB => isBoundary prev s && k prev s
    | .nwordB => !isBoundary prev s && k prev s

/-- Fuel estimate for the matcher: pattern cost times string length. -/
def reCost : RE → ℕ
  | .eps => 1
  | .lit _ => 1
  | .anyc => 1
  | .cls _ _ => 1
  | .cat a b => 1 + reCost a + reCost b
  | .alt a b => 1 + reCost a + reCost b
  | .star a => 1 + reCost a
  | .rep a lo hi => 1 + (hi.getD lo + 1) * (reCost a + 1)
  | .bol => 1
  | .eol => 1
  | .wordB => 1
  | .nwordB => 1

/-- Try a match at each start position, leftmost first (`re.search`). -/
def reSearchFrom (r : RE) (fuel : ℕ) : Option Char → List Char → Bool
  | prev, [] => reM fuel r prev [] (fun _ _ => true)
  | prev, c :: rest =>
    reM fuel r prev (c :: rest) (fun _ _ => true) || reSearchFrom r fuel (some c) rest

/-- `re.search(pattern, s, re.IGNORECASE) is not None`; `none` models
`re.error` raised when compiling the pattern. -/
def pyReSearch (pattern s : String) : Option Bool :=
  match parseRE pattern with
  | none => none
  | some r =>
    some (reSearchFrom r ((reCost r + 2) * (s.data.length + 2) * (s.data.length + 2))
      none s.data)

/-! ## `parser.match_condition` -/

/-- The operator dispatch of `match_condition` once the operator name is a
string; `none` is the final `raise ValueError(f"Unsupported op: ...")`. -/
def condOp (o : String) (value expected : Json) : Option Bool :=
  if o = "exists" then some (!value.isNull)
  else if o = "isnull" then some value.isNull
  else if o = "eq" then some (text_equal value expected)
  else if o = "ne" then some (!text_equal value expected)
  else if o = "in" then
    some (match expected with
      | .arr items =>
        match value with
        | .str _ => jlAny (fun it => text_equal value it) items
        | _ => jlAny (fun it => pyEq value it) items
      | _ => false)
  else if o = "nin" then
    some (match expected with
      | .arr items =>
        match value with
        | .str _ => jlAll (fun it => !text_equal value it) items
        | _ => !jlAny (fun it => pyEq value it) items
      | _ => true)
  else if o = "contains" ∨ o = "startswith" ∨ o = "endswith" ∨ o = "regex" then
    if value.isNull then some false
    else
      let s := pyStr value
      let t := match expected with
        | .null => ""
        | e => pyStr e
      let sF := lowerChars s.data
      let tF := lowerChars t.data
      if o = "contains" then some (isSubList tF sF)
      else if o = "startswith" then some (isPrefixList tF sF)
      else if o = "endswith" then some (isSuffixList tF sF)
      else some ((pyReSearch t s).getD false)
  else if o = "gt" ∨ o = "gte" ∨ o = "lt" ∨ o = "lte" then
    match coerce_number value, coerce_number expected with
    | some a, some b =>
      if o = "gt" then some (decide (a > b))
      else if o = "gte" then some (decide (a ≥ b))
      else if o = "lt" then some (decide (a < b))
      else some (decide (a ≤ b))
    | _, _ => some false
  else none

/-- `parser.match_condition(value, cond)`: `op` defaults to `"eq"` and
`value` (the expected constant) to `None`; a non-string operator falls
through every comparison to the final raise. -/
def match_condition (value : Json) (cond : JsonDict) : Option Bool :=
  let op := (lookupKey cond "op").getD (.str "eq")
  let expected := (lookupKey cond "value").getD .null
  match op with
  | .str o => condOp o value expected
  | _ => none

/-! ## `parser.get_by_path` -/

/-- Python `str.split(".")` (single-character separator, no regex;
`"".split(".") = [""]`, `"a.".split(".") = ["a", ""]`). -/
def splitDots : List Char → List (List Char)
  | [] => [[]]
  | '.' :: rest => [] :: splitDots rest
  | c :: rest =>
    match splitDots rest with
    | [] => [[c]]
    | g :: gs => (c :: g) :: gs

/-- The loop of `get_by_path`: walk one key segment at a time; a missing
key or a non-dict intermediate yields `None`. -/
def walkPath : Json → List (List Char) → Json
  | cur, [] => cur
  | .obj kvs, k :: rest =>
    match lookupKeyChars kvs k with
    | some v => walkPath v rest
    | none => .null
  | _, _ :: _ => .null

/-- `parser.get_by_path(obj, path)` (total: absent is Python `None`). -/
def get_by_path (record : Json) (path : String) : Json :=
  if path.data.isEmpty then .null
  else walkPath record (splitDots path.data)

/-! ## `parser.matches` -/

/-- `all(matches(record, s) for s in children)` with the generator's
short-circuiting: stop at the first `False` or the first raise. -/
def matchesAllF (m : Json → Option Bool) : JsonList → Option Bool
  | .nil => some true
  | .cons x rest =>
    match m x with
    | none => none
    | some false => some false
    | some true => matchesAllF m rest

/-- `any(matches(record, s) for s in children)`, short-circuiting. -/
def matchesAnyF (m : Json → Option Bool) : JsonList → Option Bool
  | .nil => some false
  | .cons x rest =>
    match m x with
    | none => none
    | some true => some true
    | some false => matchesAnyF m rest

/-- Evaluate `all(matches(record, s) for s in v)` for the value of an
`and` key, mirroring Python iteration: a list iterates its elements; a
string iterates its characters and a dict its keys, and every string is a
spec on which `matches` raises (see `matchesF`: a non-dict spec always
raises), so those give `True` exactly when empty; other values are not
iterable and raise. -/
def evalAndVal (m : Json → Option Bool) : Json → Option Bool
  | .arr xs => matchesAllF m xs
  | .str s => if s.data.isEmpty then some true else none
  | .obj kvs => if kvs.isEmpty then some true else none
  | _ => none

/-- Same for an `or` key (`any(...)`). -/
def evalOrVal (m : Json → Option Bool) : Json → Option Bool
  | .arr xs => matchesAnyF m xs
  | .str s => if s.data.isEmpty then some false else none
  | .obj kvs => if kvs.isEmpty then some false else none
  | _ => none

/-- `parser.matches(record, spec)`, fuelled.  A non-dict spec always
raises: for a string/list, the `"and" in spec` membership tests are
substring/element tests and the subsequent indexing raises `TypeError`;
for other types the membership test itself raises.  A leaf takes
`spec["field"]` (raising `KeyError` if absent); a non-string field name
raises `AttributeError` inside `get_by_path` unless it is falsy, in which
case `get_by_path` returns `None` before touching it. -/
def matchesF (record : Json) : ℕ → Json → Option Bool
  | 0, _ => none
  | fuel + 1, spec =>
    match spec with
    | .obj kvs =>
      match lookupKey kvs "and" with
      | some v => evalAndVal (matchesF record fuel) v
      | none =>
        match lookupKey kvs "or" with
        | some v => evalOrVal (matchesF record fuel) v
        | none =>
          match lookupKey kvs "not" with
          | some v =>
            match matchesF record fuel v with
            | some b => some (!b)
            | none => none
          | none =>
            match lookupKey kvs "field" with
            | none => none
            | some (.str f) => match_condition (get_by_path record f) kvs
            | some fv => if pyFalsy fv then match_condition .null kvs else none
    | _ => none

/-- `parser.matches(record, spec)` (named `matchesSpec` because `matches`
is reserved syntax in Lean). -/
def matchesSpec (record spec : Json) : Option Bool :=
  matchesF record (jsize spec + 1) spec

/-! ## `parser.filter_rows` -/

/-- The comprehension `[r for r in rows if isinstance(r, dict) and
matches(r, spec)]`; a raise inside `matches` aborts the whole
comprehension. -/
def filterRowsAux (spec : Json) : JsonList → Option (List Json)
  | .nil => some []
  | .cons r rest =>
    match r with
    | .obj _ =>
      match matchesSpec r spec with
      | none => none
      | some b =>
        match filterRowsAux spec rest with
        | none => none
        | some out => some (if b then r :: out else out)
    | _ => filterRowsAux spec rest

/-- `parser.filter_rows(data, spec)`: `data.get("rows_as_objects", [])`
must be a list, else `ValueError`. -/
def filter_rows (data spec : Json) : Option (List Json) :=
  match data with
  | .obj kvs =>
    match (lookupKey kvs "rows_as_objects").getD (.arr .nil) with
    | .arr rows => filterRowsAux spec rows
    | _ => none
  | _ => none

/-! ## The validator (`app._spec_depth`, `app.validate_spec`, `app.ALLOWED_OPS`) -/

/-- `app.ALLOWED_OPS`. -/
def ALLOWED_OPS : List String :=
  ["exists", "isnull", "eq", "ne", "in", "nin", "contains", "startswith",
   "endswith", "regex", "gt", "gte", "lt", "lte"]

/-- The distinct `ValueError`s `validate_spec` can raise (one constructor
per `raise` site). -/
inductive SpecError where
  | notAnObject
  | specTooDeep
  | invalidNode
  | badAndList
  | badOrList
  | unexpectedLogicalKeys
  | missingField
  | missingOp
  | unknownField
  | unsupportedOp
  | unexpectedLeafKeys
  | missingValue
  deriving DecidableEq

instance {e a : Type} [DecidableEq e] [DecidableEq a] : DecidableEq (Except e a) := fun x y =>
  match x, y with
  | .ok u, .ok v => if h : u = v then isTrue (by rw [h]) else isFalse (by simp [h])
  | .error u, .error v => if h : u = v then isTrue (by rw [h]) else isFalse (by simp [h])
  | .ok _, .error _ => isFalse (by simp)
  | .error _, .ok _ => isFalse (by simp)

/-- `max([depth] + [_spec_depth(s, depth + 1) for s in children])` as a
left fold. -/
def depthFoldF (d : Json → ℕ) : ℕ → JsonList → ℕ
  | acc, .nil => acc
  | acc, .cons x rest => depthFoldF d (max acc (d x)) rest

/-- `app._spec_depth`, fuelled.  An `and`/`or` key whose value is not a
list falls through to the next branch (the code tests
`isinstance(spec[k], list)` in the same conjunction); `not` has no such
test. -/
def specDepthF : ℕ → Json → ℕ → ℕ
  | 0, _, depth => depth
  | fuel + 1, spec, depth =>
    match spec with
    | .obj kvs =>
      match lookupKey kvs "and" with
      | some (.arr xs) => depthFoldF (fun s => specDepthF fuel s (depth + 1)) depth xs
      | _ =>
        match lookupKey kvs "or" with
        | some (.arr xs) => depthFoldF (fun s => specDepthF fuel s (depth + 1)) depth xs
        | _ =>
          match lookupKey kvs "not" with
          | some v => specDepthF fuel v (depth + 1)
          | none => depth + 1
    | _ => depth

/-- `app._spec_depth(spec)` (default depth 0). -/
def spec_depth (spec : Json) : ℕ := specDepthF (jsize spec + 1) spec 0

/-- Walk every child of an `and`/`or` list, left to right, stopping at the
first error. -/
def walkListF (w : Json → Except SpecError Unit) : JsonList → Except SpecError Unit
  | .nil => .ok ()
  | .cons x rest =>
    match w x with
    | .error e => .error e
    | .ok _ => walkListF w rest

/-- The `and`/`or` arm of `validate_spec.walk`: if the key is present its
value must be a list of at most 50 well-formed children. -/
def walkLogicalArm (w : Json → Except SpecError Unit) (e : SpecError) :
    Option Json → Except SpecError Unit
  | none => .ok ()
  | some (.arr xs) => if jlistLen xs ≤ 50 then walkListF w xs else .error e
  | some _ => .error e

/-- `validate_spec.walk`, fuelled.  A node with any of the keys
`and`/`or`/`not` is a logical node: each present arm is checked (children
are walked before the stray-key check, as in the source); any other key
is then rejected.  Otherwise the node is a leaf and must carry exactly
`field`/`op` (plus `value` unless the operator is `exists`/`isnull`),
with `field` a string in the allow-list and `op` in `ALLOWED_OPS`. -/
def walkSpecF (allowed : String → Bool) : ℕ → Json → Except SpecError Unit
  | 0, _ => .error .invalidNode
  | fuel + 1, node =>
    match node with
    | .obj kvs =>
      if (lookupKey kvs "and").isSome || (lookupKey kvs "or").isSome ||
          (lookupKey kvs "not").isSome then
        match walkLogicalArm (walkSpecF allowed fuel) .badAndList (lookupKey kvs "and") with
        | .error e => .error e
        | .ok _ =>
          match walkLogicalArm (walkSpecF allowed fuel) .badOrList (lookupKey kvs "or") with
          | .error e => .error e
          | .ok _ =>
            match (match lookupKey kvs "not" with
                   | none => Except.ok ()
                   | some v => walkSpecF allowed fuel v) with
            | .error e => .error e
            | .ok _ =>
              if dictAllKeys (fun k => k == "and" || k == "or" || k == "not") kvs then
                .ok ()
              else .error .unexpectedLogicalKeys
      else
        match lookupKey kvs "field" with
        | none => .error .missingField
        | some fieldv =>
          match lookupKey kvs "op" with
          | none => .error .missingOp
          | some opv =>
            match fieldv with
            | .str f =>
              if allowed f then
                match opv with
                | .str o =>
                  if o ∈ ALLOWED_OPS then
                    if o == "exists" || o == "isnull" then
                      if dictAllKeys (fun k => k == "field" || k == "op") kvs then
                        .ok ()
                      else .error .unexpectedLeafKeys
                    else
                      match lookupKey kvs "value" with
                      | none => .error .missingValue
                      | some _ =>
                        if dictAllKeys
                            (fun k => k == "field" || k == "op" || k == "value") kvs then
                          .ok ()
                        else .error .unexpectedLeafKeys
                  else .error .unsupportedOp
                | _ => .error .unsupportedOp
              else .error .unknownField
            | _ => .error .unknownField
    | _ => .error .invalidNode

/-- `app.validate_spec(spec, allowed_fields)`: reject non-dicts, then the
depth limit, then walk the tree. -/
def validate_spec (spec : Json) (allowed : String → Bool) : Except SpecError Unit :=
  match spec with
  | .obj _ =>
    if spec_depth spec > 12 then .error .specTooDeep
    else walkSpecF allowed (jsize spec + 1) spec
  | _ => .error .notAnObject

/-! ## Concrete objects used by the claims -/

/-- The predicate of the comprehension in `filter_rows`:
`isinstance(r, dict) and matches(r, spec)`. -/
def rowKept (spec : Json) (r : Json) : Bool :=
  r.isObj && (matchesSpec r spec == some true)

/-- A minimal well-formed leaf: `{"field": "Age", "op": "exists"}`. -/
def leafAgeExists : Json := .obj (.ofList [("field", .str "Age"), ("op", .str "exists")])

/-- `n` conjunction levels above a leaf (each singleton `{"and": [...]}`). -/
def nestAnd : ℕ → Json → Json
  | 0, leaf => leaf
  | n + 1, leaf => .obj (.cons "and" (.arr (.cons (nestAnd n leaf) .nil)) .nil)

/-- `n` negation levels above a leaf. -/
def nestNot : ℕ → Json → Json
  | 0, leaf => leaf
  | n + 1, leaf => .obj (.cons "not" (nestNot n leaf) .nil)

/-! ## Fuel adequacy of the evaluator wrapper

`matchesSpec` passes `jsize spec + 1` fuel to `matchesF`.  The lemmas
below prove that any fuel at least `jsize spec` computes the same result,
so the wrapper's choice of bound carries no semantic weight. -/

theorem jsizeL_pos : ∀ xs : JsonList, 1 ≤ jsizeL xs := by
  intro xs; cases xs <;> simp [jsizeL] <;> omega

theorem jsizeO_pos : ∀ kvs : JsonDict, 1 ≤ jsizeO kvs := by
  intro kvs; cases kvs <;> simp [jsizeO] <;> omega

/-- Sizes are positive (used to put fuel in successor form). -/
theorem jsize_pos : ∀ j : Json, 1 ≤ jsize j := by
  intro j
  cases j <;> simp [jsize]

/-- A value stored in a dict is smaller than the dict. -/
theorem lookupKey_jsize_lt (key : String) :
    ∀ (kvs : JsonDict) (v : Json), lookupKey kvs key = some v → jsize v < jsizeO kvs
  | .nil, _, h => Option.noConfusion h
  | .cons k v0 rest, v, h => by
    simp only [lookupKey] at h
    by_cases hk : k = key
    · rw [if_pos hk] at h
      injection h with h
      subst h
      simp only [jsizeO]
      omega
    · rw [if_neg hk] at h
      have := lookupKey_jsize_lt key rest v h
      simp only [jsizeO]
      omega

/-- Fuel congruence of `matchesAllF` over a child list within bounds. -/
theorem matchesAllF_fuel_congr (record : Json) (n f g : ℕ)
    (ih : ∀ spec : Json, jsize spec ≤ n →
      ∀ f2 g2 : ℕ, jsize spec ≤ f2 → jsize spec ≤ g2 →
        matchesF record f2 spec = matchesF record g2 spec) :
    ∀ xs : JsonList, jsizeL xs ≤ n + 1 → jsizeL xs ≤ f + 1 → jsizeL xs ≤ g + 1 →
      matchesAllF (matchesF record f) xs = matchesAllF (matchesF record g) xs
  | .nil, _, _, _ => rfl
  | .cons x rest, hn, hf, hg => by
    have hr := jsizeL_pos rest
    have hx := jsize_pos x
    have h1 : jsize x ≤ n := by simp only [jsizeL] at hn; omega
    have h2 : jsize x ≤ f := by simp only [jsizeL] at hf; omega
    have h3 : jsize x ≤ g := by simp only [jsizeL] at hg; omega
    have hm := ih x h1 f g h2 h3
    simp only [matchesAllF, hm]
    cases matchesF record g x with
    | none => rfl
    | some b =>
      cases b with
      | false => rfl
      | true =>
        exact matchesAllF_fuel_congr record n f g ih rest
          (by simp only [jsizeL] at hn; omega)
          (by simp only [jsizeL] at hf; omega)
          (by simp only [jsizeL] at hg; omega)

/-- Fuel congruence of `matchesAnyF` over a child list within bounds. -/
theorem matchesAnyF_fuel_congr (record : Json) (n f g : ℕ)
    (ih : ∀ spec : Json, jsize spec ≤ n →
      ∀ f2 g2 : ℕ, jsize spec ≤ f2 → jsize spec ≤ g2 →
        matchesF record f2 spec = matchesF record g2 spec) :
    ∀ xs : JsonList, jsizeL xs ≤ n + 1 → jsizeL xs ≤ f + 1 → jsizeL xs ≤ g + 1 →
      matchesAnyF (matchesF record f) xs = matchesAnyF (matchesF record g) xs
  | .nil, _, _, _ => rfl
  | .cons x rest, hn, hf, hg => by
    have hr := jsizeL_pos rest
    have hx := jsize_pos x
    have h1 : jsize x ≤ n := by simp only [jsizeL] at hn; omega
    have h2 : jsize x ≤ f := by simp only [jsizeL] at hf; omega
    have h3 : jsize x ≤ g := by simp only [jsizeL] at hg; omega
    have hm := ih x h1 f g h2 h3
    simp only [matchesAnyF, hm]
    cases matchesF record g x with
    | none => rfl
    | some b =>
      cases b with
      | true => rfl
      | false =>
        exact matchesAnyF_fuel_congr record n f g ih rest
          (by simp only [jsizeL] at hn; omega)
          (by simp only [jsizeL] at hf; omega)
          (by simp only [jsizeL] at hg; omega)

/-- The evaluator is fuel-stable beyond the structural size of the spec. -/
theorem matchesF_fuel_stable :
    ∀ (n : ℕ) (spec : Json), jsize spec ≤ n →
      ∀ (record : Json) (f g : ℕ), jsize spec ≤ f → jsize spec ≤ g →
        matchesF record f spec = matchesF record g spec := by
  intro n
  induction n with
  | zero => intro spec h; have := jsize_pos spec; omega
  | succ n ih =>
    intro spec hs record f g hf hg
    have hp := jsize_pos spec
    obtain ⟨f2, rfl⟩ : ∃ f2, f = f2 + 1 := ⟨f - 1, by omega⟩
    obtain ⟨g2, rfl⟩ : ∃ g2, g = g2 + 1 := ⟨g - 1, by omega⟩
    cases spec with
    | obj kvs =>
      have hsO : jsizeO kvs ≤ n := by simp only [jsize] at hs; omega
      have hfO : jsizeO kvs ≤ f2 := by simp only [jsize] at hf; omega
      have hgO : jsizeO kvs ≤ g2 := by simp only [jsize] at hg; omega
      simp only [matchesF]
      rcases hand : lookupKey kvs "and" with _ | av
      case some =>
        have hv := lookupKey_jsize_lt "and" kvs av hand
        cases av with
        | arr xs =>
          have hxs : jsizeL xs < jsizeO kvs := by simp only [jsize] at hv; omega
          simp only [evalAndVal]
          exact matchesAllF_fuel_congr record n f2 g2
            (fun s hsn fa ga hfa hga => ih s hsn record fa ga hfa hga) xs
            (by omega) (by omega) (by omega)
        | null => rfl
        | bool b => rfl
        | int m => rfl
        | float q => rfl
        | str s => rfl
        | obj kvs2 => rfl
      case none =>
      rcases hor : lookupKey kvs "or" with _ | ov
      case some =>
        have hv := lookupKey_jsize_lt "or" kvs ov hor
        cases ov with
        | arr xs =>
          have hxs : jsizeL xs < jsizeO kvs := by simp only [jsize] at hv; omega
          simp only [evalOrVal]
          exact matchesAnyF_fuel_congr record n f2 g2
            (fun s hsn fa ga hfa hga => ih s hsn record fa ga hfa hga) xs
            (by omega) (by omega) (by omega)
        | null => rfl
        | bool b => rfl
        | int m => rfl
        | float q => rfl
        | str s => rfl
        | obj kvs2 => rfl
      case none =>
      rcases hnot : lookupKey kvs "not" with _ | nv
      case some =>
        have hv := lookupKey_jsize_lt "not" kvs nv hnot
        have hm := ih nv (by omega) record f2 g2 (by omega) (by omega)
        simp [hm]
      case none => rfl
    | null => rfl
    | bool b => rfl
    | int m => rfl
    | float q => rfl
    | str s => rfl
    | arr xs => rfl

/-- The wrapper's fuel is adequate: any fuel at least `jsize spec`
computes exactly `matchesSpec`. -/
theorem matchesSpec_fuel_adequate (record spec : Json) (fuel : ℕ)
    (h : jsize spec ≤ fuel) :
    matchesF record fuel spec = matchesSpec record spec := by
  unfold matchesSpec
  exact matchesF_fuel_stable (jsize spec) spec le_rfl record fuel (jsize spec + 1) h
    (by omega)

/-! ## Totality of evaluation on validated specs (towards C1) -/

/-- If every child that walks cleanly also evaluates, a cleanly walking
`and`-list evaluates. -/
theorem matchesAllF_isSome (w : Json → Except SpecError Unit) (m : Json → Option Bool)
    (hwm : ∀ x : Json, w x = .ok () → (m x).isSome) :
    ∀ xs : JsonList, walkListF w xs = .ok () → (matchesAllF m xs).isSome
  | .nil, _ => by simp [matchesAllF]
  | .cons x rest, h => by
    simp only [walkListF] at h
    rcases hw : w x with e | u
    · rw [hw] at h; exact Except.noConfusion h
    · cases u
      rw [hw] at h
      have hmx := hwm x hw
      simp only [matchesAllF]
      rcases hb : m x with _ | b
      · rw [hb] at hmx; simp at hmx
      · cases b
        · simp
        · simpa using matchesAllF_isSome w m hwm rest h

/-- Same for an `or`-list. -/
theorem matchesAnyF_isSome (w : Json → Except SpecError Unit) (m : Json → Option Bool)
    (hwm : ∀ x : Json, w x = .ok () → (m x).isSome) :
    ∀ xs : JsonList, walkListF w xs = .ok () → (matchesAnyF m xs).isSome
  | .nil, _ => by simp [matchesAnyF]
  | .cons x rest, h => by
    simp only [walkListF] at h
    rcases hw : w x with e | u
    · rw [hw] at h; exact Except.noConfusion h
    · cases u
      rw [hw] at h
      have hmx := hwm x hw
      simp only [matchesAnyF]
      rcases hb : m x with _ | b
      · rw [hb] at hmx; simp at hmx
      · cases b
        · simpa using matchesAnyF_isSome w m hwm rest h
        · simp

/-- A cleanly walking logical arm is a well-formed list. -/
theorem walkLogicalArm_arr (w : Json → Except SpecError Unit) (e : SpecError) (v : Json)
    (h : walkLogicalArm w e (some v) = .ok ()) :
    ∃ xs, v = .arr xs ∧ walkListF w xs = .ok () := by
  cases v <;> simp only [walkLogicalArm] at h <;> try exact Except.noConfusion h
  case arr xs =>
    refine ⟨xs, rfl, ?_⟩
    by_cases hl : jlistLen xs ≤ 50
    · simpa [hl] using h
    · simp [hl] at h

/-- Every recognised operator evaluates to a boolean on any operands:
each branch of the condition evaluator is total. -/
theorem condOp_isSome (o : String) (ho : o ∈ ALLOWED_OPS) (value expected : Json) :
    (condOp o value expected).isSome := by
  simp only [ALLOWED_OPS, List.mem_cons, List.not_mem_nil, or_false] at ho
  rcases ho with h | h | h | h | h | h | h | h | h | h | h | h | h | h <;> subst h <;>
    simp only [condOp, String.reduceEq, reduceIte, true_or, or_true, false_or, or_false,
      if_true, if_false, ite_true, ite_false] <;>
    first
      | (simp; done)
      | (split <;> simp)

/-- The arm of an absent logical key is trivially clean. -/
theorem walkLogicalArm_none (w : Json → Except SpecError Unit) (e : SpecError) :
    walkLogicalArm w e none = .ok () := rfl

/-- Main induction for C1: with the same fuel, a spec that the validator
walk accepts is a spec on which evaluation returns a boolean. -/
theorem walkOk_matchesF_isSome (allowed : String → Bool) :
    ∀ (fuel : ℕ) (spec record : Json),
      walkSpecF allowed fuel spec = .ok () → (matchesF record fuel spec).isSome := by
  intro fuel
  induction fuel with
  | zero => intro spec record h; exact Except.noConfusion h
  | succ fuel ih =>
    intro spec record h
    cases spec with
    | obj kvs =>
      simp only [walkSpecF] at h
      simp only [matchesF]
      rcases hand : lookupKey kvs "and" with _ | av <;> rw [hand] at h
      case some =>
        simp only [Option.isSome_some, Bool.true_or, if_true] at h
        rcases hw1 : walkLogicalArm (walkSpecF allowed fuel) .badAndList (some av) with e | u
        · rw [hw1] at h; exact Except.noConfusion h
        · cases u
          rcases walkLogicalArm_arr _ _ _ hw1 with ⟨xs, rfl, hlist⟩
          simpa [evalAndVal] using
            matchesAllF_isSome (walkSpecF allowed fuel) (matchesF record fuel)
              (fun x hx => ih x record hx) xs hlist
      case none =>
      rcases hor : lookupKey kvs "or" with _ | ov <;> rw [hor] at h
      case some =>
        simp only [Option.isSome_none, Option.isSome_some, Bool.false_or, Bool.true_or,
          if_true, walkLogicalArm_none] at h
        rcases hw2 : walkLogicalArm (walkSpecF allowed fuel) .badOrList (some ov) with e | u
        · rw [hw2] at h; exact Except.noConfusion h
        · cases u
          rcases walkLogicalArm_arr _ _ _ hw2 with ⟨xs, rfl, hlist⟩
          simpa [evalOrVal] using
            matchesAnyF_isSome (walkSpecF allowed fuel) (matchesF record fuel)
              (fun x hx => ih x record hx) xs hlist
      case none =>
      rcases hnot : lookupKey kvs "not" with _ | nv <;> rw [hnot] at h
      case some =>
        simp only [Option.isSome_none, Option.isSome_some, Bool.false_or, Bool.true_or,
          if_true, walkLogicalArm_none] at h
        rcases hwn : walkSpecF allowed fuel nv with e | u
        · rw [hwn] at h; exact Except.noConfusion h
        · cases u
          have hs := ih nv record hwn
          rcases hm : matchesF record fuel nv with _ | b
          · rw [hm] at hs; simp at hs
          · simp [hm]
      case none =>
        -- leaf node
        simp only [Option.isSome_none, Bool.false_or, if_false, Bool.false_eq_true] at h
        rcases hf : lookupKey kvs "field" with _ | fv <;> rw [hf] at h
        · exact Except.noConfusion h
        rcases hop : lookupKey kvs "op" with _ | opv <;> rw [hop] at h
        · exact Except.noConfusion h
        cases fv with
        | str f =>
          by_cases hall : allowed f
          · simp only [hall] at h
            cases opv with
            | str o =>
              by_cases ho : o ∈ ALLOWED_OPS
              · simp [hf, match_condition, hop]
                exact condOp_isSome o ho _ _
              · simp [ho] at h
            | null => simp at h
            | bool b2 => simp at h
            | int n2 => simp at h
            | float q2 => simp at h
            | arr xs2 => simp at h
            | obj kvs2 => simp at h
          · simp [hall] at h
        | null => simp at h
        | bool b2 => simp at h
        | int n2 => simp at h
        | float q2 => simp at h
        | arr xs2 => simp at h
        | obj kvs2 => simp at h
    | null => simp [walkSpecF] at h
    | bool b => simp [walkSpecF] at h
    | int n => simp [walkSpecF] at h
    | float q => simp [walkSpecF] at h
    | str s => simp [walkSpecF] at h
    | arr xs => simp [walkSpecF] at h

/-- A spec the validator accepts passes the walk at the wrapper fuel. -/
theorem validate_ok_walk (spec : Json) (allowed : String → Bool)
    (h : validate_spec spec allowed = .ok ()) :
    walkSpecF allowed (jsize spec + 1) spec = .ok () := by
  cases spec with
  | obj kvs =>
    simp only [validate_spec] at h
    by_cases hd : spec_depth (.obj kvs) > 12
    · rw [if_pos hd] at h; exact Except.noConfusion h
    · rwa [if_neg hd] at h
  | null => exact Except.noConfusion h
  | bool b => exact Except.noConfusion h
  | int n => exact Except.noConfusion h
  | float q => exact Except.noConfusion h
  | str s => exact Except.noConfusion h
  | arr xs => exact Except.noConfusion h

/-- On a validated spec, evaluation returns a boolean for every record. -/
theorem validated_matchesSpec_isSome (spec : Json) (allowed : String → Bool)
    (h : validate_spec spec allowed = .ok ()) (record : Json) :
    (matchesSpec record spec).isSome :=
  walkOk_matchesF_isSome allowed (jsize spec + 1) spec record
    (validate_ok_walk spec allowed h)

/-- C1: for every record and every spec tree that `validate_spec` accepts
against a field allow-list, `matches` returns a boolean and raises no
error — in particular the final `raise ValueError(f"Unsupported op: ...")`
of `match_condition` is unreachable on validated input. -/
theorem validated_spec_evaluation_total (spec : Json) (allowed : String → Bool)
    (h : validate_spec spec allowed = .ok ()) (record : Json) :
    ∃ b : Bool, matchesSpec record spec = some b := by
  have hs := validated_matchesSpec_isSome spec allowed h record
  rcases hm : matchesSpec record spec with _ | b
  · rw [hm] at hs; simp at hs
  · exact ⟨b, rfl⟩


/-- Witness for C1 at a concrete validated spec and record. -/
theorem validated_spec_evaluation_total_witness :
    ∃ b : Bool,
      matchesSpec (.obj (.ofList [("Cohort", .str "Legacy")]))
        (.obj (.ofList [("field", .str "Cohort"), ("op", .str "eq"), ("value", .str "legacy")])) =
        some b :=
  validated_spec_evaluation_total
    (.obj (.ofList [("field", .str "Cohort"), ("op", .str "eq"), ("value", .str "legacy")]))
    (fun f => f == "Cohort") (by decide) (.obj (.ofList [("Cohort", .str "Legacy")]))

/-! ## C2: the row filter is a filtered, order-preserving subsequence -/

/-- A non-dict row is skipped without being matched. -/
theorem filterRowsAux_cons_nonobj (spec r : Json) (rest : JsonList) (hr : r.isObj = false) :
    filterRowsAux spec (.cons r rest) = filterRowsAux spec rest := by
  cases r <;> simp [filterRowsAux] <;> simp [Json.isObj] at hr

/-- If the comprehension completes, its output is exactly the `rowKept`
filter of the input, and an order-preserving subsequence of it. -/
theorem filterRowsAux_filter_sublist (spec : Json) :
    ∀ (rows : JsonList) (out : List Json), filterRowsAux spec rows = some out →
      out = rows.toList.filter (rowKept spec) ∧ out.Sublist rows.toList
  | .nil, out, h => by
    simp only [filterRowsAux, Option.some.injEq] at h
    subst h
    simp [JsonList.toList]
  | .cons r rest, out, h => by
    by_cases hro : r.isObj
    case pos =>
      rcases r with _ | _ | _ | _ | _ | _ | kvs <;> simp [Json.isObj] at hro
      simp only [filterRowsAux] at h
      rcases hm : matchesSpec (.obj kvs) spec with _ | b
      · rw [hm] at h; exact Option.noConfusion h
      rcases ho : filterRowsAux spec rest with _ | out2
      · rw [hm, ho] at h; exact Option.noConfusion h
      rw [hm, ho] at h
      simp only [Option.some.injEq] at h
      obtain ⟨hfil, hsub⟩ := filterRowsAux_filter_sublist spec rest out2 ho
      subst h
      cases b
      · refine ⟨?_, ?_⟩
        · simp [JsonList.toList, List.filter_cons, rowKept, Json.isObj, hm, hfil]
        · simpa [JsonList.toList] using hsub.cons (Json.obj kvs)
      · refine ⟨?_, ?_⟩
        · simp [JsonList.toList, List.filter_cons, rowKept, Json.isObj, hm, hfil]
        · simpa [JsonList.toList] using hsub.cons₂ (Json.obj kvs)
    case neg =>
      simp only [Bool.not_eq_true] at hro
      rw [filterRowsAux_cons_nonobj spec r rest hro] at h
      obtain ⟨hfil, hsub⟩ := filterRowsAux_filter_sublist spec rest out h
      refine ⟨?_, ?_⟩
      · simp [JsonList.toList, List.filter_cons, rowKept, hro, hfil]
      · simpa [JsonList.toList] using hsub.cons r

/-- On a spec that never makes `matches` raise, the comprehension never
raises either. -/
theorem filterRowsAux_isSome (spec : Json)
    (hm : ∀ r : Json, (matchesSpec r spec).isSome) :
    ∀ rows : JsonList, (filterRowsAux spec rows).isSome
  | .nil => by simp [filterRowsAux]
  | .cons r rest => by
    have hrest := filterRowsAux_isSome spec hm rest
    rcases ho : filterRowsAux spec rest with _ | out
    · rw [ho] at hrest; simp at hrest
    by_cases hro : r.isObj
    · rcases r with _ | _ | _ | _ | _ | _ | kvs <;> simp [Json.isObj] at hro
      have hr := hm (.obj kvs)
      rcases hb : matchesSpec (.obj kvs) spec with _ | b
      · rw [hb] at hr; simp at hr
      · simp [filterRowsAux, hb, ho]
    · simp only [Bool.not_eq_true] at hro
      rw [filterRowsAux_cons_nonobj spec r rest hro, ho]
      simp

/-- C2: whenever `filter_rows` returns, the result is exactly the
mapping-typed rows on which `matches` is true, in their original relative
order (an order-preserving subsequence of the input rows); non-mapping
rows are skipped without matching and without error, and no row is
fabricated.  On a validated spec the comprehension always returns (no
row makes it raise). -/
theorem filter_rows_filtered_subsequence :
    (∀ (data spec : Json) (out : List Json), filter_rows data spec = some out →
      ∃ (kvs : JsonDict) (rows : JsonList),
        data = .obj kvs ∧
        (lookupKey kvs "rows_as_objects").getD (.arr .nil) = .arr rows ∧
        out = rows.toList.filter (rowKept spec) ∧ out.Sublist rows.toList) ∧
    (∀ (spec : Json) (allowed : String → Bool), validate_spec spec allowed = .ok () →
      ∀ rows : JsonList, (filterRowsAux spec rows).isSome) := by
  constructor
  · intro data spec out h
    cases data with
    | obj kvs =>
      simp only [filter_rows] at h
      rcases hv : (lookupKey kvs "rows_as_objects").getD (.arr .nil) with
          _ | _ | _ | _ | _ | rows | _ <;> rw [hv] at h <;> try exact Option.noConfusion h
      exact ⟨kvs, rows, rfl, hv, filterRowsAux_filter_sublist spec rows out h⟩
    | null => exact Option.noConfusion h
    | bool b => exact Option.noConfusion h
    | int n => exact Option.noConfusion h
    | float q => exact Option.noConfusion h
    | str s => exact Option.noConfusion h
    | arr xs => exact Option.noConfusion h
  · intro spec allowed h rows
    exact filterRowsAux_isSome spec
      (fun r => validated_matchesSpec_isSome spec allowed h r) rows

/-- Witness for C2 on a concrete data set with a non-mapping row. -/
theorem filter_rows_filtered_subsequence_witness :
    (∃ (kvs : JsonDict) (rows : JsonList),
      (Json.obj (.ofList [("rows_as_objects", .arr (.ofList
        [.obj (.ofList [("Cohort", .str "Legacy"), ("Age", .str "22")]),
         .str "junk",
         .obj (.ofList [("Cohort", .str "New"), ("Age", .str "19")])]))])) = .obj kvs ∧
      (lookupKey kvs "rows_as_objects").getD (.arr .nil) = .arr rows ∧
      [Json.obj (.ofList [("Cohort", .str "Legacy"), ("Age", .str "22")])] =
        rows.toList.filter
          (rowKept (.obj (.ofList [("field", .str "Age"), ("op", .str "gte"), ("value", .int 20)]))) ∧
      List.Sublist [Json.obj (.ofList [("Cohort", .str "Legacy"), ("Age", .str "22")])]
        rows.toList) ∧
    (filterRowsAux (.obj (.ofList [("field", .str "Age"), ("op", .str "gte"), ("value", .int 20)]))
      (.ofList [.obj (.ofList [("Age", .str "22")]), .str "junk"])).isSome :=
  ⟨filter_rows_filtered_subsequence.1
    (.obj (.ofList [("rows_as_objects", .arr (.ofList
      [.obj (.ofList [("Cohort", .str "Legacy"), ("Age", .str "22")]),
       .str "junk",
       .obj (.ofList [("Cohort", .str "New"), ("Age", .str "19")])]))]))
    (.obj (.ofList [("field", .str "Age"), ("op", .str "gte"), ("value", .int 20)]))
    [Json.obj (.ofList [("Cohort", .str "Legacy"), ("Age", .str "22")])]
    (by decide),
   filter_rows_filtered_subsequence.2
    (.obj (.ofList [("field", .str "Age"), ("op", .str "gte"), ("value", .int 20)]))
    (fun f => f == "Age") (by decide)
    (.ofList [.obj (.ofList [("Age", .str "22")]), .str "junk"])⟩

/-! ## C3: the depth limit -/

/-- C3: validation enforces the depth limit of 12, counting each
conjunction/disjunction/negation level and each leaf as one level: any
accepted spec has depth at most 12, and a spec nested 13 levels deep
(12 `and` levels or 12 `not` levels above a leaf) is rejected with the
`SpecTooDeep` error while 12 levels are accepted. -/
theorem depth_limit_enforced :
    (∀ (spec : Json) (allowed : String → Bool),
        validate_spec spec allowed = .ok () → spec_depth spec ≤ 12) ∧
    validate_spec (nestAnd 12 leafAgeExists) (fun f => f == "Age") = .error .specTooDeep ∧
    validate_spec (nestAnd 11 leafAgeExists) (fun f => f == "Age") = .ok () ∧
    validate_spec (nestNot 12 leafAgeExists) (fun f => f == "Age") = .error .specTooDeep ∧
    validate_spec (nestNot 11 leafAgeExists) (fun f => f == "Age") = .ok () := by
  refine ⟨?_, by decide, by decide, by decide, by decide⟩
  intro spec allowed h
  cases spec with
  | obj kvs =>
    simp only [validate_spec] at h
    by_cases hd : spec_depth (.obj kvs) > 12
    · rw [if_pos hd] at h; exact Except.noConfusion h
    · omega
  | null => exact Except.noConfusion h
  | bool b => exact Except.noConfusion h
  | int n => exact Except.noConfusion h
  | float q => exact Except.noConfusion h
  | str s => exact Except.noConfusion h
  | arr xs => exact Except.noConfusion h

/-- Witness for the universal part of C3 at a concrete accepted spec. -/
theorem depth_limit_enforced_witness :
    spec_depth (.obj (.ofList [("field", .str "Age"), ("op", .str "exists")])) ≤ 12 :=
  depth_limit_enforced.1 _ (fun f => f == "Age") (by decide)

/-! ## C4: the `eq` fallback is Python `==`, not type-strict equality -/

/-- C4 counterexample: contrary to the claim, text equality between the
boolean `True` and the number `1` — and between the int `1` and the float
`1.0` — is `true` (the fallback is Python `==`, under which `bool`/`int`/
`float` compare by numeric value), and the `eq` operator follows suit. -/
theorem text_equal_type_strict_counterexample :
    text_equal (.bool true) (.int 1) = true ∧
    text_equal (.int 1) (.float 1) = true ∧
    match_condition (.bool true)
      (.ofList [("field", .str "X"), ("op", .str "eq"), ("value", .int 1)]) = some true ∧
    match_condition (.int 1)
      (.ofList [("field", .str "X"), ("op", .str "eq"), ("value", .float 1)]) = some true := by
  decide

/-- Python `==` at one unit of fuel on two numeric-family values. -/
theorem pyEqF_num (fuel : ℕ) (a b : Json) (qa qb : ℚ)
    (ha : pyNumQ a = some qa) (hb : pyNumQ b = some qb) :
    pyEqF (fuel + 1) a b = (qa == qb) := by
  simp only [pyEqF, ha, hb]

/-- C4 (amended): for operands where neither both are strings nor both
are gender tokens, text equality falls back to Python `==`; within the
numeric family (`bool`/`int`/`float`) that compares numeric values — so
`eq` between `True` and `1`, or between `1` and `1.0`, is true rather
than false. -/
theorem text_equal_numeric_family (a b : Json) (qa qb : ℚ)
    (ha : pyNumQ a = some qa) (hb : pyNumQ b = some qb) :
    text_equal a b = (qa == qb) := by
  have hpy : pyEq a b = (qa == qb) := pyEqF_num _ a b qa qb ha hb
  cases a <;> simp only [pyNumQ, Option.some.injEq, reduceCtorEq] at ha
  all_goals cases b <;> simp only [pyNumQ, Option.some.injEq, reduceCtorEq] at hb
  all_goals simpa [text_equal, canonical_gender_token] using hpy

/-- Witness for the amended C4 at `True == 1`. -/
theorem text_equal_numeric_family_witness :
    text_equal (.bool true) (.int 1) = ((1 : ℚ) == (1 : ℚ)) :=
  text_equal_numeric_family (.bool true) (.int 1) 1 1 (by decide) (by decide)

/-! ## C5: the years pattern is tried before the generic number fallback -/

/-- C5: in string coercion, when the direct parse of the cleaned string
fails and the years pattern matches somewhere, the result is the years
number — regardless of what the generic first-number search would find
(in particular when a different numeric substring occurs earlier). -/
theorem years_before_first_number (x : String) (q : ℚ)
    (hne : (trimChars x.data).isEmpty = false)
    (hdirect : pyFloatCore (lowerChars ((trimChars x.data).filter (fun c => c ≠ ','))) = none)
    (hyears : searchYears ((trimChars x.data).filter (fun c => c ≠ ',')) = some q) :
    coerce_number (.str x) = some q := by
  simp only [coerce_number, hne, hdirect, hyears, Bool.false_eq_true, if_false]

/-- Witness for C5 on a string whose first numeric substring (196)
differs from its years number (20). -/
theorem years_before_first_number_witness :
    coerce_number (.str "196 days, 20 years") = some (mkRat 20 1) ∧
    searchFirstNumber ((trimChars "196 days, 20 years".data).filter (fun c => c ≠ ',')) =
      some (mkRat 196 1) ∧
    (mkRat 196 1 : ℚ) ≠ mkRat 20 1 :=
  ⟨years_before_first_number "196 days, 20 years" (mkRat 20 1)
      (by decide) (by decide) (by decide),
   by decide, by decide⟩

/-! ## C6: duration coercion under `gte`/`gt` -/

/-- C6: the record `{"Maternal Age": "20 years, 196 days"}` satisfies the
leaf `{op: "gte", value: 20}` and does not satisfy `{op: "gt", value: 20}`
(the coerced value is exactly 20). -/
theorem duration_gte_but_not_gt :
    matchesSpec (.obj (.ofList [("Maternal Age", .str "20 years, 196 days")]))
      (.obj (.ofList [("field", .str "Maternal Age"), ("op", .str "gte"), ("value", .int 20)])) =
      some true ∧
    matchesSpec (.obj (.ofList [("Maternal Age", .str "20 years, 196 days")]))
      (.obj (.ofList [("field", .str "Maternal Age"), ("op", .str "gt"), ("value", .int 20)])) =
      some false ∧
    coerce_number (.str "20 years, 196 days") = some (mkRat 20 1) := by
  refine ⟨by decide, by decide, by decide⟩

/-! ## C7: an invalid regex pattern validates, and degrades to false -/

/-- The unbalanced pattern `(` does not compile: `re.search` raises
`re.error` whatever the subject string is. -/
theorem pyReSearch_unbalanced (s : String) : pyReSearch "(" s = none := by
  have hp : parseRE "(" = none := by decide
  simp [pyReSearch, hp]

/-- The regex condition with pattern `(` evaluates to false on every
resolved value (the `re.error` is caught). -/
theorem match_condition_unbalanced_regex (value : Json) :
    match_condition value
      (.ofList [("field", .str "Notes"), ("op", .str "regex"), ("value", .str "(")]) =
      some false := by
  cases value <;>
    simp [match_condition, JsonDict.ofList, lookupKey, condOp, Json.isNull, pyStr,
      pyReSearch_unbalanced]

/-- C7: the leaf `{field: "Notes", op: "regex", value: "("}` is accepted
by validation (pattern validity is not statically checked), and at
evaluation time it is false for every record and every resolved value,
raising no error. -/
theorem invalid_regex_validates_and_degrades :
    validate_spec
      (.obj (.ofList [("field", .str "Notes"), ("op", .str "regex"), ("value", .str "(")]))
      (fun f => f == "Notes") = .ok () ∧
    (∀ value : Json,
      match_condition value
        (.ofList [("field", .str "Notes"), ("op", .str "regex"), ("value", .str "(")]) =
        some false) ∧
    (∀ record : Json,
      matchesSpec record
        (.obj (.ofList [("field", .str "Notes"), ("op", .str "regex"), ("value", .str "(")])) =
        some false) := by
  refine ⟨by decide, fun value => match_condition_unbalanced_regex value, fun record => ?_⟩
  simpa [matchesSpec, matchesF, JsonDict.ofList, lookupKey] using
    match_condition_unbalanced_regex (get_by_path record "Notes")

/-! ## C8: gender canonicalization in `eq` -/

/-- C8: `{"Gender": "M"}` matches `{field: "Gender", op: "eq", value:
"Male"}` and `{"Gender": "female"}` matches `value: "Woman"`; the
canonical tokens are computed case-insensitively after stripping
non-letters. -/
theorem gender_canonicalization :
    matchesSpec (.obj (.ofList [("Gender", .str "M")]))
      (.obj (.ofList [("field", .str "Gender"), ("op", .str "eq"), ("value", .str "Male")])) =
      some true ∧
    matchesSpec (.obj (.ofList [("Gender", .str "female")]))
      (.obj (.ofList [("field", .str "Gender"), ("op", .str "eq"), ("value", .str "Woman")])) =
      some true ∧
    canonical_gender_token (.str "M") = some "male" ∧
    canonical_gender_token (.str "female") = some "female" ∧
    canonical_gender_token (.str "Woman") = some "female" := by
  refine ⟨by decide, by decide, by decide, by decide, by decide⟩

/-! ## C9: a node with both `and` and `or` keys -/

/-- Evaluating a node whose first binding is `"and": [leafAgeExists]`
depends on nothing else in the node: any extra bindings (an `or`, a
`not`, anything) are never consulted. -/
theorem matchesF_andLeaf_eval (record : Json) (fuel : ℕ) (rest : JsonDict) :
    matchesF record (fuel + 1 + 1)
      (.obj (.cons "and" (.arr (.cons leafAgeExists .nil)) rest)) =
      some (!(get_by_path record "Age").isNull) := by
  cases hb : (get_by_path record "Age").isNull <;>
    simp [matchesF, lookupKey, evalAndVal, matchesAllF, leafAgeExists, JsonDict.ofList,
      match_condition, condOp, hb]

/-- C9: a node carrying both an `and` and an `or` key (each a well-formed
child list) passes validation, and evaluation uses only the `and` list:
the `or` (and any other extra binding, e.g. a `not`) never influences the
result, because the evaluator checks `and` first and returns. -/
theorem and_key_shadows_or :
    validate_spec
      (.obj (.ofList [("and", .arr (.ofList [leafAgeExists])),
                      ("or", .arr (.ofList [leafAgeExists]))]))
      (fun f => f == "Age") = .ok () ∧
    (∀ (record : Json) (rest : JsonDict),
      matchesSpec record (.obj (.cons "and" (.arr (.cons leafAgeExists .nil)) rest)) =
        matchesSpec record (.obj (.cons "and" (.arr (.cons leafAgeExists .nil)) .nil))) ∧
    matchesSpec (.obj .nil)
      (.obj (.ofList [("and", .arr .nil), ("or", .arr (.ofList [leafAgeExists]))])) =
      some true ∧
    matchesSpec (.obj .nil)
      (.obj (.ofList [("or", .arr (.ofList [leafAgeExists]))])) = some false := by
  refine ⟨by decide, fun record rest => ?_, by decide, by decide⟩
  unfold matchesSpec
  obtain ⟨f1, hf1⟩ : ∃ f,
      jsize (.obj (.cons "and" (.arr (.cons leafAgeExists .nil)) rest)) + 1 = f + 1 + 1 := by
    have := jsize_pos (.obj (.cons "and" (.arr (.cons leafAgeExists .nil)) rest))
    exact ⟨jsize (.obj (.cons "and" (.arr (.cons leafAgeExists .nil)) rest)) - 1, by omega⟩
  obtain ⟨f2, hf2⟩ : ∃ f,
      jsize (.obj (.cons "and" (.arr (.cons leafAgeExists .nil)) .nil)) + 1 = f + 1 + 1 := by
    have := jsize_pos (.obj (.cons "and" (.arr (.cons leafAgeExists .nil)) .nil))
    exact ⟨jsize (.obj (.cons "and" (.arr (.cons leafAgeExists .nil)) .nil)) - 1, by omega⟩
  rw [hf1, hf2, matchesF_andLeaf_eval, matchesF_andLeaf_eval]

/-! ## C10: a dotted field name never reads a literal dotted key -/

/-- Character-list lookup agrees with string lookup. -/
theorem lookupKeyChars_eq_lookupKey (s : String) :
    ∀ kvs : JsonDict, lookupKeyChars kvs s.data = lookupKey kvs s
  | .nil => rfl
  | .cons k v rest => by
    simp only [lookupKeyChars, lookupKey]
    by_cases h : k = s
    · simp [h]
    · have hd : k.data ≠ s.data := fun hdata => h (String.ext hdata)
      simp [h, hd, lookupKeyChars_eq_lookupKey s rest]

/-- `splitDots` splits at the first dot: the dot-free prefix becomes the
first segment. -/
theorem splitDots_append (cs2 : List Char) :
    ∀ cs1 : List Char, '.' ∉ cs1 → splitDots (cs1 ++ '.' :: cs2) = cs1 :: splitDots cs2
  | [], _ => by simp [splitDots]
  | c :: rest, h => by
    have hc : c ≠ '.' := fun hh => h (by simp [hh])
    have hrest : '.' ∉ rest := fun hm => h (by simp [hm])
    have ihr := splitDots_append cs2 rest hrest
    simp only [List.cons_append]
    simp [splitDots, hc, ihr]

/-- C10: the path resolver unconditionally splits the field name on `.`,
so a leaf whose field name `f1 ++ "." ++ f2` contains a dot never reads a
top-level key of that literal name: whenever the record has no binding
for the first segment `f1` (even though it binds the literal dotted key
itself), resolution is absent, `exists` is false and `isnull` is true
for that leaf. -/
theorem dotted_field_reads_no_literal_key (f1 f2 : String) (kvs : JsonDict) (v : Json)
    (hdot : '.' ∉ f1.data)
    (hhas : lookupKey kvs (f1 ++ "." ++ f2) = some v)
    (hno : lookupKey kvs f1 = none) :
    get_by_path (.obj kvs) (f1 ++ "." ++ f2) = .null ∧
    matchesSpec (.obj kvs)
      (.obj (.ofList [("field", .str (f1 ++ "." ++ f2)), ("op", .str "exists")])) =
      some false ∧
    matchesSpec (.obj kvs)
      (.obj (.ofList [("field", .str (f1 ++ "." ++ f2)), ("op", .str "isnull")])) =
      some true := by
  have hdata : (f1 ++ "." ++ f2).data = f1.data ++ '.' :: f2.data := by
    simp [String.data_append]
  have hsplit : splitDots (f1.data ++ '.' :: f2.data) = f1.data :: splitDots f2.data :=
    splitDots_append f2.data f1.data hdot
  have hne : ((f1 ++ "." ++ f2).data).isEmpty = false := by
    rw [hdata]; cases f1.data <;> simp
  have hla : lookupKeyChars kvs f1.data = lookupKey kvs f1 :=
    lookupKeyChars_eq_lookupKey f1 kvs
  have hg : get_by_path (.obj kvs) (f1 ++ "." ++ f2) = .null := by
    simp [get_by_path, hne, hsplit, walkPath, hla, hno]
  refine ⟨hg, ?_, ?_⟩ <;>
    simp [matchesSpec, matchesF, JsonDict.ofList, lookupKey, hg, match_condition, condOp,
      Json.isNull]

/-- Witness for C10 at the record `{"a.b": 5}` and the field `"a.b"`. -/
theorem dotted_field_reads_no_literal_key_witness :
    get_by_path (.obj (.ofList [("a.b", .int 5)])) ("a" ++ "." ++ "b") = .null ∧
    matchesSpec (.obj (.ofList [("a.b", .int 5)]))
      (.obj (.ofList [("field", .str ("a" ++ "." ++ "b")), ("op", .str "exists")])) =
      some false ∧
    matchesSpec (.obj (.ofList [("a.b", .int 5)]))
      (.obj (.ofList [("field", .str ("a" ++ "." ++ "b")), ("op", .str "isnull")])) =
      some true :=
  dotted_field_reads_no_literal_key "a" "b" (.ofList [("a.b", .int 5)]) (.int 5)
    (by decide) (by decide) (by decide)

end HSq
